import Mathlib

/-!
Verification development for the matrix-multiply canister (`src/main.rs`).

Modelling conventions:
* 32-bit signed machine integers are represented by their unsigned bit
  patterns, i.e. natural numbers below 2^32 = 4294967296.  Two's-complement
  wraparound addition and multiplication on bit patterns are `add32` and
  `mul32`; `toInt32` recovers the signed value of a pattern.
* The stable memory (`ExternalStore`) is a byte store modelled as a total
  function `Nat → Nat` (address to byte value); freshly grown stable memory
  is zero-initialized, so the initial store is the constant-zero function.
* The thread-local `DATA` (`MatrixState`) is the structure `Data` of three
  lists of bit patterns.
* Rust `i32` arithmetic (`+`, `*`, `+=`) is modelled with wraparound
  semantics (release-mode / wasm semantics, as the spec requires).
-/

/-- Wraparound addition of two 32-bit patterns (`i32` `+`). -/
def add32 (a b : Nat) : Nat := (a + b) % 4294967296

/-- Wraparound multiplication of two 32-bit patterns (`i32` `*`). -/
def mul32 (a b : Nat) : Nat := (a * b) % 4294967296

/-- Signed value of a 32-bit pattern (two's complement). -/
def toInt32 (x : Nat) : Int :=
  if x % 4294967296 < 2147483648 then (x % 4294967296 : Nat)
  else (x % 4294967296 : Nat) - 4294967296

/-- Little-endian byte encoding of a 32-bit value (`i32::to_le_bytes`). -/
def toLeBytes (v : Nat) : List Nat :=
  [v % 256, v / 256 % 256, v / 65536 % 256, v / 16777216 % 256]

/-- Write one byte into the byte store. -/
def writeByte (m : Nat → Nat) (addr v : Nat) : Nat → Nat :=
  fun x => if x = addr then v else m x

/-- Write a list of bytes at consecutive addresses (`stable_write`). -/
def writeBytes : (Nat → Nat) → Nat → List Nat → (Nat → Nat)
  | m, _, [] => m
  | m, addr, v :: rest => writeBytes (writeByte m addr v) (addr + 1) rest

/-- Decode the 4 bytes at `addr` as a little-endian 32-bit word.  This is the
byte order `init` uses with `to_le_bytes`, and the order in which
`multiply_stable_old`'s transmute reinterprets the bytes on the (little-endian)
wasm32 target. -/
def readWord (m : Nat → Nat) (addr : Nat) : Nat :=
  m addr + 256 * m (addr + 1) + 65536 * m (addr + 2) + 16777216 * m (addr + 3)

/-- Write a list of 32-bit values as little-endian words at consecutive
word addresses starting at `base` (the `stable_write(i*4, to_le_bytes)` loops
of `init`). -/
def writeWords : (Nat → Nat) → Nat → List Nat → (Nat → Nat)
  | m, _, [] => m
  | m, base, v :: rest => writeWords (writeBytes m base (toLeBytes v)) (base + 4) rest

/-- The thread-local `DATA` (struct `Data { a, b, out }` in `main.rs`):
flat sequences of `i32` bit patterns. -/
structure Data where
  a : List Nat
  b : List Nat
  out : List Nat
deriving DecidableEq

/-- The stable memory: page count plus byte contents. -/
structure Store where
  pages : Nat
  mem : Nat → Nat

/-- The `DATA` state before `init` runs: three empty vectors. -/
def emptyData : Data := { a := [], b := [], out := [] }

/-- Stable memory before any growth: zero pages, all bytes zero. -/
def emptyStore : Store := { pages := 0, mem := fun _ => 0 }

/-- Synthetic contents of `A`: `data.a.push(i as u32 as i32)` for
`i in 0..n*d`, i.e. pattern `i % 2^32`. -/
def initA (n d : Nat) : List Nat := (List.range (n * d)).map (fun i => i % 4294967296)

/-- Synthetic contents of `B`: pattern `i % 2^32` for `i in 0..n`. -/
def initB (n : Nat) : List Nat := (List.range n).map (fun i => i % 4294967296)

/-- Page count requested by `init`:
`((n * d + n + d) * 4) / (64 * 1024) + 1`. -/
def stablePages (n d : Nat) : Nat := ((n * d + n + d) * 4) / (64 * 1024) + 1

/-- Byte offset of `A` in stable memory (`a_addr = 0`). -/
def aAddr : Nat := 0

/-- Byte offset of `B` in stable memory (`b_addr = n * d * 4`). -/
def bAddr (n d : Nat) : Nat := n * d * 4

/-- Byte offset of `Out` in stable memory (`out_addr = (n * d + n) * 4`). -/
def outAddr (n d : Nat) : Nat := (n * d + n) * 4

/-- Stable memory contents after `init n d` on a fresh store: the elements of
`A` written little-endian at word offsets from 0, then the elements of `B`
written at word offsets from `n*d*4`. -/
def initMem (n d : Nat) : Nat → Nat :=
  writeWords (writeWords (fun _ => 0) aAddr (initA n d)) (bAddr n d) (initB n)

/-- Full state after a successful `init n d` from the fresh state. -/
def initState (n d : Nat) : Data × Store :=
  ({ a := initA n d, b := initB n, out := List.replicate d 0 },
   { pages := stablePages n d, mem := initMem n d })

/-- Model of `init(n, d)`: the Boolean records whether the host grants the
`stable_grow` request; on refusal the `unwrap()` panics and the call fails. -/
def init (n d : Nat) (growOk : Bool) : Option (Data × Store) :=
  if growOk then some (initState n d) else none

/-- The program state at the instant `stable_grow(..).unwrap()` fails inside
`init n d` (run from the fresh state): the loops filling `data.a`, `data.b`
and the assignment `data.out = vec![0; d]` have already executed (they precede
the growth request in the source), while the store is untouched — the denied
`stable_grow` changes neither the page count nor any byte, and the writes to
stable memory all come after it. -/
def initFailState (n d : Nat) : Data × Store :=
  ({ a := initA n d, b := initB n, out := List.replicate d 0 }, emptyStore)

/-- Number of iterations of `for j in (0..n).step_by(4)`. -/
def numBatches (n : Nat) : Nat := (n + 3) / 4

/-- One iteration of the inner batch loop of `multiply_stable_old`: read 16
bytes of `A` at `aBase` and 16 bytes of `B` at `bBase`, reinterpret each as
four `i32`s, and multiply-accumulate the four lanes into `ival` with
wrapping `i32` arithmetic. -/
def batchMac (m : Nat → Nat) (aBase bBase : Nat) : Nat :=
  List.foldl
    (fun ival k => add32 ival (mul32 (readWord m (aBase + 4 * k)) (readWord m (bBase + 4 * k))))
    0 (List.range 4)

/-- The value `val` accumulated for output row `i` by `multiply_stable_old`:
`val += ival` over the batches `j = 4*t`, with `in_ = i*n*4`. -/
def scalarRow (m : Nat → Nat) (n d i : Nat) : Nat :=
  List.foldl
    (fun val t => add32 val (batchMac m (aAddr + i * n * 4 + 16 * t) (bAddr n d + 16 * t)))
    0 (List.range (numBatches n))

/-- One iteration of the row loop of `multiply_stable_old`: compute `val` for
row `i` from the current store and write it little-endian at
`out_addr + i*4`. -/
def scalarStep (n d : Nat) (m2 : Nat → Nat) (i : Nat) : Nat → Nat :=
  writeBytes m2 (outAddr n d + 4 * i) (toLeBytes (scalarRow m2 n d i))

/-- The scalar store engine `multiply_stable_old`, acting on the store, with
`n = b.len()` and `d = out.len()` passed explicitly. -/
def multiply_stable_old (m : Nat → Nat) (n d : Nat) : Nat → Nat :=
  List.foldl (scalarStep n d) m (List.range d)

/-- Lane `k` (of 4) of the vector accumulator `vals` of `multiply_stable`
after the batch loop for row `i`: lane-wise wrapping multiply-add over the
batches. -/
def vecLane (m : Nat → Nat) (n d i k : Nat) : Nat :=
  List.foldl
    (fun acc t =>
      add32 acc (mul32 (readWord m (aAddr + i * n * 4 + 16 * t + 4 * k))
        (readWord m (bAddr n d + 16 * t + 4 * k))))
    0 (List.range (numBatches n))

/-- The scalar `val` of `multiply_stable` for row `i`: the four lanes of the
accumulator summed with wrapping `i32` addition. -/
def vecRowVal (m : Nat → Nat) (n d i : Nat) : Nat :=
  add32 (add32 (add32 (vecLane m n d i 0) (vecLane m n d i 1)) (vecLane m n d i 2))
    (vecLane m n d i 3)

/-- One iteration of the row loop of `multiply_stable`: `stable_write_i32`
of the reduced lane sum at `out_addr + i*4`. -/
def vecStep (n d : Nat) (m2 : Nat → Nat) (i : Nat) : Nat → Nat :=
  writeBytes m2 (outAddr n d + 4 * i) (toLeBytes (vecRowVal m2 n d i))

/-- The vectorized store engine `multiply_stable` (wasm32 version), acting on
the store, with `n = b.len()` and `d = out.len()` passed explicitly. -/
def multiply_stable (m : Nat → Nat) (n d : Nat) : Nat → Nat :=
  List.foldl (vecStep n d) m (List.range d)

/-- Inner group loop of `matmul`: `ival += a[base + j0 + k] * b[j0 + k]` for
`k in 0..g` with wrapping `i32` arithmetic.  The raw-pointer reads of the
source are in bounds whenever the group size divides `n` (the case the
theorems below are about); out-of-range indices are modelled as reading 0. -/
def macGroup (a b : List Nat) (g base j0 : Nat) : Nat :=
  List.foldl
    (fun ival k => add32 ival (mul32 (a.getD (base + j0 + k) 0) (b.getD (j0 + k) 0)))
    0 (List.range g)

/-- The value accumulated for output row `i` by `matmul`: `val += ival` over
the groups `j = g*t` produced by `(0..n).step_by(g)`. -/
def heapRow (a b : List Nat) (g n i : Nat) : Nat :=
  List.foldl (fun val t => add32 val (macGroup a b g (i * n) (g * t)))
    0 (List.range ((n + g - 1) / g))

/-- `matmul::<g>()` acting on `DATA`: checks the assertion
`assert_eq!(data.a.len(), n * d)` (returning `none` models the panic) and
rewrites `out` row by row. -/
def matmul (g : Nat) (data : Data) : Option Data :=
  if data.a.length = data.b.length * data.out.length then
    some { data with
      out := (List.range data.out.length).map
        (fun i => heapRow data.a data.b g data.b.length i) }
  else none

/-- `multiply_heap()` = `matmul::<64>()`: touches only `DATA`, never the
stable memory. -/
def multiply_heap_run (s : Data × Store) : Option (Data × Store) :=
  (matmul 64 s.1).map (fun dt => (dt, s.2))

/-- `multiply_stable_old()` as an operation on the full state: `n` and `d`
are read from `b.len()` and `out.len()`, and only the store changes. -/
def multiply_stable_old_run (s : Data × Store) : Data × Store :=
  (s.1, { s.2 with mem := multiply_stable_old s.2.mem s.1.b.length s.1.out.length })

/-- `multiply_stable()` (wasm32) as an operation on the full state. -/
def multiply_stable_run (s : Data × Store) : Data × Store :=
  (s.1, { s.2 with mem := multiply_stable s.2.mem s.1.b.length s.1.out.length })

/-- Store contents for the overflow scenario `n = 1`, `d = 1` with
`A = [2147483647]`, `B = [2]`: the two words written little-endian at their
layout addresses (`a_addr = 0`, `b_addr = 4`), the rest of stable memory
zero. -/
def overflowMem : Nat → Nat :=
  writeWords (writeWords (fun _ => 0) 0 [2147483647]) 4 [2]

/-- Heap-engine overflow scenario with `n = 64` (so the fixed group size 64
divides `n`), `d = 1`: `A = [2147483647, 0, …, 0]`, `B = [2, 0, …, 0]`, so
the only nonzero product is `2147483647 * 2`, which overflows `i32`. -/
def overflowData : Data :=
  { a := 2147483647 :: List.replicate 63 0,
    b := 2 :: List.replicate 63 0,
    out := [0] }

/-! ### Basic lemmas about the byte store -/

lemma toLeBytes_length (v : Nat) : (toLeBytes v).length = 4 := rfl

lemma writeBytes_eq (bs : List Nat) (m : Nat → Nat) (addr x : Nat) :
    writeBytes m addr bs x =
      if addr ≤ x ∧ x < addr + bs.length then bs.getD (x - addr) 0 else m x := by
  induction bs generalizing m addr with
  | nil =>
      simp only [writeBytes, List.length_nil, List.getD]
      rw [if_neg]
      omega
  | cons b rest ih =>
      rw [writeBytes, ih]
      by_cases h1 : addr + 1 ≤ x ∧ x < addr + 1 + rest.length
      · rw [if_pos h1, if_pos (by simp only [List.length_cons]; omega)]
        have hx : x - addr = (x - (addr + 1)) + 1 := by omega
        rw [hx, List.getD_cons_succ]
      · rw [if_neg h1]
        by_cases h2 : x = addr
        · subst h2
          rw [writeByte, if_pos rfl, if_pos (by simp only [List.length_cons]; omega)]
          simp
        · rw [writeByte, if_neg h2, if_neg (by simp only [List.length_cons]; omega)]

lemma writeBytes_lt (bs : List Nat) (m : Nat → Nat) (addr x : Nat) (hx : x < addr) :
    writeBytes m addr bs x = m x := by
  rw [writeBytes_eq, if_neg]
  omega

lemma writeWords_eq (vs : List Nat) (m : Nat → Nat) (base x : Nat) :
    writeWords m base vs x =
      if base ≤ x ∧ x < base + 4 * vs.length then
        (toLeBytes (vs.getD ((x - base) / 4) 0)).getD ((x - base) % 4) 0
      else m x := by
  induction vs generalizing m base with
  | nil =>
      simp only [writeWords, List.length_nil, List.getD]
      rw [if_neg]
      omega
  | cons v rest ih =>
      rw [writeWords, ih]
      by_cases h1 : base + 4 ≤ x ∧ x < base + 4 + 4 * rest.length
      · rw [if_pos h1, if_pos (by simp only [List.length_cons]; omega)]
        have hdiv : (x - base) / 4 = (x - (base + 4)) / 4 + 1 := by omega
        have hmod : (x - base) % 4 = (x - (base + 4)) % 4 := by omega
        rw [hdiv, hmod, List.getD_cons_succ]
      · rw [if_neg h1, writeBytes_eq, toLeBytes_length]
        by_cases h2 : base ≤ x ∧ x < base + 4
        · rw [if_pos h2, if_pos (by simp only [List.length_cons]; omega)]
          have hdiv : (x - base) / 4 = 0 := by omega
          have hmod : (x - base) % 4 = x - base := by omega
          rw [hdiv, hmod, List.getD_cons_zero]
        · rw [if_neg h2, if_neg (by simp only [List.length_cons]; omega)]

lemma writeWords_lt (vs : List Nat) (m : Nat → Nat) (base x : Nat) (hx : x < base) :
    writeWords m base vs x = m x := by
  rw [writeWords_eq, if_neg]
  omega

lemma le_decode (v : Nat) :
    v % 256 + 256 * (v / 256 % 256) + 65536 * (v / 65536 % 256)
      + 16777216 * (v / 16777216 % 256) = v % 4294967296 := by
  omega

lemma readWord_writeBytes_le (m : Nat → Nat) (addr v : Nat) :
    readWord (writeBytes m addr (toLeBytes v)) addr = v % 4294967296 := by
  rw [readWord]
  rw [writeBytes_eq, writeBytes_eq, writeBytes_eq, writeBytes_eq]
  rw [toLeBytes_length]
  rw [if_pos (by omega), if_pos (by omega), if_pos (by omega), if_pos (by omega)]
  have h0 : addr - addr = 0 := by omega
  have h1 : addr + 1 - addr = 1 := by omega
  have h2 : addr + 2 - addr = 2 := by omega
  have h3 : addr + 3 - addr = 3 := by omega
  rw [h0, h1, h2, h3]
  simp only [toLeBytes, List.getD_cons_zero, List.getD_cons_succ]
  exact le_decode v

lemma readWord_congr (m m' : Nat → Nat) (addr : Nat)
    (h : ∀ x, addr ≤ x → x < addr + 4 → m x = m' x) :
    readWord m addr = readWord m' addr := by
  rw [readWord, readWord, h addr (by omega) (by omega), h (addr + 1) (by omega) (by omega),
    h (addr + 2) (by omega) (by omega), h (addr + 3) (by omega) (by omega)]

/-- Reading word `i` back out of a `writeWords` block returns element `i`
reduced mod 2^32. -/
lemma readWord_writeWords (vs : List Nat) (m : Nat → Nat) (base i : Nat)
    (hi : i < vs.length) :
    readWord (writeWords m base vs) (base + 4 * i) = vs.getD i 0 % 4294967296 := by
  rw [readWord]
  rw [writeWords_eq, writeWords_eq, writeWords_eq, writeWords_eq]
  rw [if_pos (by omega), if_pos (by omega), if_pos (by omega), if_pos (by omega)]
  have e0 : base + 4 * i - base = 4 * i := by omega
  have e1 : base + 4 * i + 1 - base = 4 * i + 1 := by omega
  have e2 : base + 4 * i + 2 - base = 4 * i + 2 := by omega
  have e3 : base + 4 * i + 3 - base = 4 * i + 3 := by omega
  rw [e0, e1, e2, e3]
  have d0 : 4 * i / 4 = i := by omega
  have d1 : (4 * i + 1) / 4 = i := by omega
  have d2 : (4 * i + 2) / 4 = i := by omega
  have d3 : (4 * i + 3) / 4 = i := by omega
  have m0 : 4 * i % 4 = 0 := by omega
  have m1 : (4 * i + 1) % 4 = 1 := by omega
  have m2 : (4 * i + 2) % 4 = 2 := by omega
  have m3 : (4 * i + 3) % 4 = 3 := by omega
  rw [d0, d1, d2, d3, m0, m1, m2, m3]
  simp only [toLeBytes, List.getD_cons_zero, List.getD_cons_succ]
  exact le_decode _

/-! ### Lemmas about wrapping folds -/

lemma add32_lt (a b : Nat) : add32 a b < 4294967296 :=
  Nat.mod_lt _ (by norm_num)

lemma foldl_add32 {α : Type} (f : α → Nat) (l : List α) (a : Nat) (ha : a < 4294967296) :
    List.foldl (fun acc x => add32 acc (f x)) a l = (a + (l.map f).sum) % 4294967296 := by
  induction l generalizing a with
  | nil => simpa using (Nat.mod_eq_of_lt ha).symm
  | cons x xs ih =>
      rw [List.foldl_cons, ih (add32 a (f x)) (add32_lt _ _)]
      simp only [List.map_cons, List.sum_cons, add32]
      rw [Nat.mod_add_mod]
      ring_nf

lemma foldl_add32_lt {α : Type} (f : α → Nat) (l : List α) (a : Nat) (ha : a < 4294967296) :
    List.foldl (fun acc x => add32 acc (f x)) a l < 4294967296 := by
  rw [foldl_add32 f l a ha]
  exact Nat.mod_lt _ (by norm_num)

lemma sum_map_mod {α : Type} (f : α → Nat) (l : List α) :
    ((l.map (fun x => f x % 4294967296)).sum) % 4294967296 = ((l.map f).sum) % 4294967296 := by
  induction l with
  | nil => rfl
  | cons x xs ih =>
      simp only [List.map_cons, List.sum_cons]
      omega

/-- Summing a function over groups `g*t + k` (`t < q` groups of `g`) equals
summing it over `0 ≤ j < g*q`. -/
lemma sum_groups (f : Nat → Nat) (g q : Nat) :
    ((List.range q).map (fun t => ((List.range g).map (fun k => f (g * t + k))).sum)).sum
      = ((List.range (g * q)).map f).sum := by
  induction q with
  | zero => simp
  | succ q ih =>
      rw [List.range_succ, List.map_append, List.sum_append, ih]
      have : g * (q + 1) = g * q + g := by ring
      rw [this, List.range_add, List.map_append, List.sum_append, List.map_map]
      simp [Function.comp_def]

lemma listSum_range (f : Nat → Nat) (n : Nat) :
    ((List.range n).map f).sum = ∑ i ∈ Finset.range n, f i := by
  induction n with
  | zero => simp
  | succ n ih =>
      rw [List.range_succ, List.map_append, List.sum_append, Finset.sum_range_succ, ih]
      simp

/-! ### Normal forms of the per-row accumulators -/

lemma batchMac_eq (m : Nat → Nat) (aB bB : Nat) :
    batchMac m aB bB =
      ((List.range 4).map (fun k => readWord m (aB + 4 * k) * readWord m (bB + 4 * k))).sum
        % 4294967296 := by
  rw [batchMac, foldl_add32 _ _ 0 (by norm_num), Nat.zero_add]
  simp only [mul32]
  exact sum_map_mod _ _

lemma scalarRow_eq (m : Nat → Nat) (n d i : Nat) :
    scalarRow m n d i =
      ((List.range (numBatches n)).map (fun t =>
        ((List.range 4).map (fun k =>
          readWord m (aAddr + i * n * 4 + 16 * t + 4 * k)
            * readWord m (bAddr n d + 16 * t + 4 * k))).sum)).sum % 4294967296 := by
  rw [scalarRow, foldl_add32 _ _ 0 (by norm_num), Nat.zero_add]
  simp only [batchMac_eq]
  exact sum_map_mod _ _

lemma vecLane_eq (m : Nat → Nat) (n d i k : Nat) :
    vecLane m n d i k =
      ((List.range (numBatches n)).map (fun t =>
        readWord m (aAddr + i * n * 4 + 16 * t + 4 * k)
          * readWord m (bAddr n d + 16 * t + 4 * k))).sum % 4294967296 := by
  rw [vecLane, foldl_add32 _ _ 0 (by norm_num), Nat.zero_add]
  simp only [mul32]
  exact sum_map_mod _ _

/-- Summing four lanes pointwise inside one list sum is the same as summing
each lane's list separately. -/
lemma sum4_swap (P : Nat → Nat → Nat) (l : List Nat) :
    (l.map (fun t => ((List.range 4).map (fun k => P t k)).sum)).sum
      = (l.map (fun t => P t 0)).sum + (l.map (fun t => P t 1)).sum
        + (l.map (fun t => P t 2)).sum + (l.map (fun t => P t 3)).sum := by
  induction l with
  | nil => simp
  | cons h tl ih =>
      simp only [List.map_cons, List.sum_cons, ih]
      have hr : (List.range 4) = [0, 1, 2, 3] := by decide
      rw [hr]
      simp only [List.map_cons, List.map_nil, List.sum_cons, List.sum_nil]
      ring

/-- The reduced lane sum of the vectorized engine equals the scalar engine's
accumulator: summing lane-wise then reducing lanes regroups the same wrapped
sum of products. -/
lemma vecRowVal_eq_scalarRow (m : Nat → Nat) (n d i : Nat) :
    vecRowVal m n d i = scalarRow m n d i := by
  rw [vecRowVal, scalarRow_eq]
  simp only [vecLane_eq]
  rw [sum4_swap
    (fun t k => readWord m (aAddr + i * n * 4 + 16 * t + 4 * k)
      * readWord m (bAddr n d + 16 * t + 4 * k))
    (List.range (numBatches n))]
  simp only [add32]
  omega

/-! ### Read and write regions of the store engines -/

lemma numBatches_div (n : Nat) (h4 : 4 ∣ n) : numBatches n = n / 4 := by
  obtain ⟨q, rfl⟩ := h4
  unfold numBatches
  omega

/-- With `4 ∣ n` every `A` read of a store engine's row `i < d` lies strictly
below the `B` region. -/
lemma readA_bound (n d i t k : Nat) (h4 : 4 ∣ n) (hi : i < d)
    (ht : t < numBatches n) (hk : k < 4) :
    aAddr + i * n * 4 + 16 * t + 4 * k + 4 ≤ bAddr n d := by
  obtain ⟨q, rfl⟩ := h4
  have ht' : t < q := by
    have := numBatches_div (4 * q) ⟨q, rfl⟩
    omega
  have h1 : 16 * t + 4 * k + 4 ≤ 16 * q := by omega
  have h2 : q * (i + 1) ≤ q * d := Nat.mul_le_mul_left q hi
  have e1 : i * (4 * q) * 4 = 16 * (q * i) := by ring
  have e2 : bAddr (4 * q) d = 16 * (q * d) := by rw [bAddr]; ring
  have e3 : q * (i + 1) = q * i + q := by ring
  rw [aAddr, e1, e2]
  omega

/-- With `4 ∣ n` every `B` read of a store engine lies strictly below the
`Out` region. -/
lemma readB_bound (n d t k : Nat) (h4 : 4 ∣ n) (ht : t < numBatches n) (hk : k < 4) :
    bAddr n d + 16 * t + 4 * k + 4 ≤ outAddr n d := by
  obtain ⟨q, rfl⟩ := h4
  have ht' : t < q := by
    have := numBatches_div (4 * q) ⟨q, rfl⟩
    omega
  have e1 : bAddr (4 * q) d = 16 * (q * d) := by rw [bAddr]; ring
  have e2 : outAddr (4 * q) d = 16 * (q * d) + 16 * q := by rw [outAddr]; ring
  rw [e1, e2]
  omega

lemma bAddr_le_outAddr (n d : Nat) : bAddr n d ≤ outAddr n d := by
  rw [bAddr, outAddr]
  omega

/-- With `4 ∣ n` and `i < d`, row `i`'s accumulator only depends on the bytes
below `outAddr` (the `A` and `B` regions). -/
lemma scalarRow_congr (m m' : Nat → Nat) (n d i : Nat) (h4 : 4 ∣ n) (hi : i < d)
    (h : ∀ x, x < outAddr n d → m x = m' x) :
    scalarRow m n d i = scalarRow m' n d i := by
  rw [scalarRow, scalarRow]
  apply List.foldl_ext
  intro acc t ht
  have ht' : t < numBatches n := List.mem_range.mp ht
  congr 1
  rw [batchMac, batchMac]
  apply List.foldl_ext
  intro acc2 k hk
  have hk' : k < 4 := List.mem_range.mp hk
  have ha : readWord m (aAddr + i * n * 4 + 16 * t + 4 * k)
      = readWord m' (aAddr + i * n * 4 + 16 * t + 4 * k) := by
    apply readWord_congr
    intro x hx1 hx2
    apply h
    have hb := readA_bound n d i t k h4 hi ht' hk'
    have hbo := bAddr_le_outAddr n d
    omega
  have hb : readWord m (bAddr n d + 16 * t + 4 * k)
      = readWord m' (bAddr n d + 16 * t + 4 * k) := by
    apply readWord_congr
    intro x hx1 hx2
    apply h
    have hbo := readB_bound n d t k h4 ht' hk'
    omega
  rw [ha, hb]

lemma scalarRow_lt (m : Nat → Nat) (n d i : Nat) : scalarRow m n d i < 4294967296 := by
  rw [scalarRow]
  exact foldl_add32_lt _ _ 0 (by norm_num)

/-- A row write of the scalar engine never touches a byte below `outAddr`. -/
lemma scalarStep_low (n d : Nat) (m : Nat → Nat) (i x : Nat) (hx : x < outAddr n d) :
    scalarStep n d m i x = m x := by
  rw [scalarStep, writeBytes_eq, toLeBytes_length, if_neg]
  omega

lemma foldl_scalarStep_low (n d : Nat) (l : List Nat) (m : Nat → Nat) (x : Nat)
    (hx : x < outAddr n d) :
    List.foldl (scalarStep n d) m l x = m x := by
  induction l generalizing m with
  | nil => rfl
  | cons j rest ih => rw [List.foldl_cons, ih, scalarStep_low n d m j x hx]

/-- The row writes of the scalar engine leave a byte unchanged when it lies in
none of the 4-byte output windows of the rows in `l`. -/
lemma foldl_scalarStep_untouched (n d : Nat) (l : List Nat) (m : Nat → Nat) (x : Nat)
    (hx : ∀ j ∈ l, x < outAddr n d + 4 * j ∨ outAddr n d + 4 * j + 4 ≤ x) :
    List.foldl (scalarStep n d) m l x = m x := by
  induction l generalizing m with
  | nil => rfl
  | cons j rest ih =>
      rw [List.foldl_cons, ih _ (fun j' hj' => hx j' (List.mem_cons_of_mem j hj'))]
      rw [scalarStep, writeBytes_eq, toLeBytes_length, if_neg]
      have := hx j (List.mem_cons_self j rest)
      omega

/-- Reading back output word `i` after the scalar engine's row loop over a
duplicate-free row list containing `i`: the value is row `i`'s accumulator,
computed from the store as it was before the loop (with `4 ∣ n` the rows only
read below `outAddr`, which the loop never writes). -/
lemma foldl_scalarStep_readWord (n d : Nat) (h4 : 4 ∣ n) (l : List Nat) (m : Nat → Nat)
    (i : Nat) (hi : i < d) (hmem : i ∈ l) (hnd : l.Nodup) :
    readWord (List.foldl (scalarStep n d) m l) (outAddr n d + 4 * i)
      = scalarRow m n d i := by
  induction l generalizing m with
  | nil => cases hmem
  | cons j rest ih =>
      rw [List.foldl_cons]
      rcases List.mem_cons.mp hmem with hij | hirest
      · subst hij
        have hnotin : i ∉ rest := (List.nodup_cons.mp hnd).1
        have huntouched : ∀ x, outAddr n d + 4 * i ≤ x → x < outAddr n d + 4 * i + 4 →
            List.foldl (scalarStep n d) (scalarStep n d m i) rest x
              = scalarStep n d m i x := by
          intro x hx1 hx2
          apply foldl_scalarStep_untouched
          intro j' hj'
          have hne : j' ≠ i := fun he => hnotin (he ▸ hj')
          omega
        rw [readWord_congr _ _ _ huntouched, scalarStep, readWord_writeBytes_le]
        exact Nat.mod_eq_of_lt (scalarRow_lt m n d i)
      · rw [ih (scalarStep n d m j) hirest (List.nodup_cons.mp hnd).2]
        exact scalarRow_congr _ _ n d i h4 hi (fun x hx => scalarStep_low n d m j x hx)

/-- Output word `i` of the scalar store engine, as a function of the initial
store. -/
lemma multiply_stable_old_readWord (m : Nat → Nat) (n d i : Nat) (h4 : 4 ∣ n)
    (hi : i < d) :
    readWord (multiply_stable_old m n d) (outAddr n d + 4 * i) = scalarRow m n d i := by
  rw [multiply_stable_old]
  exact foldl_scalarStep_readWord n d h4 _ m i hi (List.mem_range.mpr hi) (List.nodup_range d)

/-! ### Flattened sums: grouping does not change the wrapped result -/

/-- With `4 ∣ n` the scalar engine's accumulator for row `i` is the wrapped
sum over all `n` products, independent of the batching. -/
lemma scalarRow_flat (m : Nat → Nat) (n d i : Nat) (h4 : 4 ∣ n) :
    scalarRow m n d i =
      ((List.range n).map (fun j =>
        readWord m (aAddr + i * n * 4 + 4 * j) * readWord m (bAddr n d + 4 * j))).sum
        % 4294967296 := by
  obtain ⟨q, rfl⟩ := h4
  rw [scalarRow_eq, numBatches_div (4 * q) ⟨q, rfl⟩]
  have hq : 4 * q / 4 = q := by omega
  rw [hq]
  congr 1
  rw [← sum_groups (fun j =>
      readWord m (aAddr + i * (4 * q) * 4 + 4 * j) * readWord m (bAddr (4 * q) d + 4 * j)) 4 q]
  apply congrArg List.sum
  apply List.map_congr_left
  intro t _
  apply congrArg List.sum
  apply List.map_congr_left
  intro k _
  have e1 : aAddr + i * (4 * q) * 4 + 16 * t + 4 * k
      = aAddr + i * (4 * q) * 4 + 4 * (4 * t + k) := by ring
  have e2 : bAddr (4 * q) d + 16 * t + 4 * k = bAddr (4 * q) d + 4 * (4 * t + k) := by ring
  rw [e1, e2]

lemma macGroup_eq (a b : List Nat) (g base j0 : Nat) :
    macGroup a b g base j0 =
      ((List.range g).map (fun k => a.getD (base + j0 + k) 0 * b.getD (j0 + k) 0)).sum
        % 4294967296 := by
  rw [macGroup, foldl_add32 _ _ 0 (by norm_num), Nat.zero_add]
  simp only [mul32]
  exact sum_map_mod _ _

/-- With `0 < g` and `g ∣ n` the heap engine's accumulator for row `i` is the
wrapped sum over all `n` products, independent of the grouping. -/
lemma heapRow_flat (a b : List Nat) (g n i : Nat) (hg : 0 < g) (hdvd : g ∣ n) :
    heapRow a b g n i =
      ((List.range n).map (fun j => a.getD (i * n + j) 0 * b.getD j 0)).sum
        % 4294967296 := by
  obtain ⟨q, rfl⟩ := hdvd
  rw [heapRow]
  have hlen : (g * q + g - 1) / g = q := by
    rw [show g * q + g - 1 = (g - 1) + q * g by
      have : 1 ≤ g := hg
      have e : q * g = g * q := by ring
      omega]
    rw [Nat.add_mul_div_right _ _ hg, Nat.div_eq_of_lt (by omega)]
    omega
  rw [hlen, foldl_add32 _ _ 0 (by norm_num), Nat.zero_add]
  simp only [macGroup_eq]
  rw [sum_map_mod]
  congr 1
  rw [← sum_groups (fun j => a.getD (i * (g * q) + j) 0 * b.getD j 0) g q]
  apply congrArg List.sum
  apply List.map_congr_left
  intro t _
  apply congrArg List.sum
  apply List.map_congr_left
  intro k _
  have e1 : i * (g * q) + g * t + k = i * (g * q) + (g * t + k) := by ring
  rw [e1]

/-! ### Reading the initialized store back -/

lemma initA_length (n d : Nat) : (initA n d).length = n * d := by
  simp [initA]

lemma initB_length (n : Nat) : (initB n).length = n := by
  simp [initB]

lemma initA_getD (n d i : Nat) (hi : i < n * d) :
    (initA n d).getD i 0 = i % 4294967296 := by
  rw [initA, List.getD_eq_getElem?_getD, List.getElem?_map, List.getElem?_range hi]
  rfl

lemma initB_getD (n i : Nat) (hi : i < n) :
    (initB n).getD i 0 = i % 4294967296 := by
  rw [initB, List.getD_eq_getElem?_getD, List.getElem?_map, List.getElem?_range hi]
  rfl

/-- Decoding word `i` of the `A` region of the freshly initialized store
recovers the pattern of `A[i]`. -/
lemma initMem_readWord_a (n d i : Nat) (hi : i < n * d) :
    readWord (initMem n d) (aAddr + 4 * i) = i % 4294967296 := by
  rw [initMem]
  have hb : readWord (writeWords (writeWords (fun _ => 0) aAddr (initA n d))
      (bAddr n d) (initB n)) (aAddr + 4 * i)
      = readWord (writeWords (fun _ => 0) aAddr (initA n d)) (aAddr + 4 * i) := by
    apply readWord_congr
    intro x hx1 hx2
    apply writeWords_lt
    rw [bAddr]
    rw [aAddr] at hx1 hx2
    omega
  rw [hb, readWord_writeWords _ _ _ i (by rw [initA_length]; exact hi),
    initA_getD n d i hi]
  omega

/-- Decoding word `j` of the `B` region of the freshly initialized store
recovers the pattern of `B[j]`. -/
lemma initMem_readWord_b (n d j : Nat) (hj : j < n) :
    readWord (initMem n d) (bAddr n d + 4 * j) = j % 4294967296 := by
  rw [initMem, readWord_writeWords _ _ _ j (by rw [initB_length]; exact hj),
    initB_getD n j hj]
  omega

/-- Byte `k` of `A` element `i` in the freshly initialized store is byte `k`
of the little-endian encoding of the value. -/
lemma initMem_byte_a (n d i k : Nat) (hi : i < n * d) (hk : k < 4) :
    initMem n d (i * 4 + k) = (toLeBytes (i % 4294967296)).getD k 0 := by
  rw [initMem, writeWords_lt _ _ _ _ (by rw [bAddr]; omega), writeWords_eq,
    initA_length, aAddr]
  rw [if_pos (by omega)]
  have hdiv : (i * 4 + k - 0) / 4 = i := by omega
  have hmod : (i * 4 + k - 0) % 4 = k := by omega
  rw [hdiv, hmod, initA_getD n d i hi]

/-- Byte `k` of `B` element `i` in the freshly initialized store is byte `k`
of the little-endian encoding of the value, at base `n*d*4`. -/
lemma initMem_byte_b (n d i k : Nat) (hi : i < n) (hk : k < 4) :
    initMem n d (n * d * 4 + i * 4 + k) = (toLeBytes (i % 4294967296)).getD k 0 := by
  rw [initMem, writeWords_eq, initB_length, bAddr]
  rw [if_pos (by omega)]
  have hdiv : (n * d * 4 + i * 4 + k - n * d * 4) / 4 = i := by omega
  have hmod : (n * d * 4 + i * 4 + k - n * d * 4) % 4 = k := by omega
  rw [hdiv, hmod, initB_getD n i hi]

lemma getD_map_range (f : Nat → Nat) (d i : Nat) (hi : i < d) :
    ((List.range d).map f).getD i 0 = f i := by
  rw [List.getD_eq_getElem?_getD, List.getElem?_map, List.getElem?_range hi]
  rfl

/-! ### The claims -/

/-- Claim C1: for every store and every `(n, d)` with `4 ∣ n`, the vectorized
store engine `multiply_stable` and the scalar store engine
`multiply_stable_old` leave byte-identical stores (in particular
byte-identical `Out` regions): reducing the four lanes after the batch loop
regroups exactly the scalar engine's wrapped sum, and both engines issue the
same writes. -/
theorem claim1_vectorized_equals_scalar (m : Nat → Nat) (n d : Nat) (h4 : 4 ∣ n)
    (x : Nat) :
    multiply_stable m n d x = multiply_stable_old m n d x := by
  rw [multiply_stable, multiply_stable_old]
  have hstep : vecStep n d = scalarStep n d := by
    funext m2 i
    rw [vecStep, scalarStep, vecRowVal_eq_scalarRow]
  rw [hstep]

/-- Witness for C1 at `n = 4`, `d = 1`, reading back byte 48 (the first `Out`
byte) from the zero store. -/
theorem claim1_witness :
    (4 ∣ 4) ∧ multiply_stable (fun _ => 0) 4 1 48 = multiply_stable_old (fun _ => 0) 4 1 48 :=
  ⟨⟨1, rfl⟩, claim1_vectorized_equals_scalar (fun _ => 0) 4 1 ⟨1, rfl⟩ 48⟩

/-- Claim C3: on any state satisfying the length invariant with
`64 ∣ b.length`, `multiply_heap` succeeds (the assertion holds) and replaces
`out` with exactly the wrapped dot products
`Out[i] = (Σ_j A[i*n+j] * B[j]) mod 2^32`; the grouping into blocks of 64
does not change the result, `a` and `b` are unchanged, and the external store
is untouched. -/
theorem claim3_heap_engine_correct (data : Data) (st : Store)
    (hlen : data.a.length = data.b.length * data.out.length)
    (h64 : 64 ∣ data.b.length) :
    multiply_heap_run (data, st) = some
      ({ data with out := (List.range data.out.length).map (fun i =>
          ((List.range data.b.length).map
            (fun j => data.a.getD (i * data.b.length + j) 0 * data.b.getD j 0)).sum
            % 4294967296) }, st) := by
  have hm : matmul 64 data = some
      { data with out := (List.range data.out.length).map (fun i =>
          ((List.range data.b.length).map
            (fun j => data.a.getD (i * data.b.length + j) 0 * data.b.getD j 0)).sum
            % 4294967296) } := by
    rw [matmul, if_pos hlen]
    have hrows : (List.range data.out.length).map
        (fun i => heapRow data.a data.b 64 data.b.length i)
        = (List.range data.out.length).map (fun i =>
          ((List.range data.b.length).map
            (fun j => data.a.getD (i * data.b.length + j) 0 * data.b.getD j 0)).sum
            % 4294967296) :=
      List.map_congr_left (fun i _ =>
        heapRow_flat data.a data.b 64 data.b.length i (by norm_num) h64)
    rw [hrows]
  show (matmul 64 data).map (fun dt => (dt, st)) = _
  rw [hm]
  rfl

/-- Witness for C3 on the state `initialize(64, 1)` produces (with the empty
store attached). -/
theorem claim3_witness :
    ((initState 64 1).1.a.length = (initState 64 1).1.b.length * (initState 64 1).1.out.length)
    ∧ (64 ∣ (initState 64 1).1.b.length)
    ∧ multiply_heap_run ((initState 64 1).1, emptyStore) = some
      ({ (initState 64 1).1 with out := (List.range (initState 64 1).1.out.length).map (fun i =>
          ((List.range (initState 64 1).1.b.length).map
            (fun j => (initState 64 1).1.a.getD (i * (initState 64 1).1.b.length + j) 0
              * (initState 64 1).1.b.getD j 0)).sum
            % 4294967296) }, emptyStore) :=
  ⟨by decide, ⟨1, by decide⟩,
    claim3_heap_engine_correct (initState 64 1).1 emptyStore (by decide) ⟨1, by decide⟩⟩

/-- Claim C4: after `initialize(n, d)`, `A[i]` is the 32-bit truncation of `i`
for every `i < n*d`, `B[j]` is the 32-bit truncation of `j` for every
`j < n`, `Out` is exactly `d` zeros, and in particular
`initialize(3, 2)` gives `A = [0,1,2,3,4,5]`, `B = [0,1,2]`. -/
theorem claim4_init_values (n d i j : Nat) (hi : i < n * d) (hj : j < n) :
    (initState n d).1.a.getD i 0 = i % 4294967296 ∧
    (initState n d).1.b.getD j 0 = j % 4294967296 ∧
    (initState n d).1.out = List.replicate d 0 ∧
    (initState 3 2).1.a = [0, 1, 2, 3, 4, 5] ∧ (initState 3 2).1.b = [0, 1, 2] :=
  ⟨initA_getD n d i hi, initB_getD n j hj, rfl, by decide, by decide⟩

/-- Witness for C4 at `n = 3`, `d = 2`, `i = 4`, `j = 2`. -/
theorem claim4_witness :
    4 < 3 * 2 ∧ 2 < 3 ∧
      ((initState 3 2).1.a.getD 4 0 = 4 % 4294967296 ∧
       (initState 3 2).1.b.getD 2 0 = 2 % 4294967296 ∧
       (initState 3 2).1.out = List.replicate 2 0 ∧
       (initState 3 2).1.a = [0, 1, 2, 3, 4, 5] ∧ (initState 3 2).1.b = [0, 1, 2]) :=
  ⟨by decide, by decide, claim4_init_values 3 2 4 2 (by decide) (by decide)⟩

/-- Claim C5, counterexample: at `n = 4`, `d = 3276` the byte size
`(n*d + n + d)*4` is exactly one page (65536 bytes), so the smallest `p` with
`p * 65536 ≥` the byte size is 1, yet `init` requests
`stablePages 4 3276 = 2` pages — one more than the minimum, refuting the
claim's boundary case. -/
theorem claim5_counterexample :
    (4 * 3276 + 4 + 3276) * 4 = 1 * 65536 ∧ stablePages 4 3276 = 2 := by decide

/-- Claim C5, amended: the page count `init` requests is
`(n*d + n + d)*4 / 65536 + 1`, i.e. the smallest `p` with
`p * 65536` strictly greater than the byte size (so at least 1 page always,
and one page more than the minimum exactly when the byte size is a nonzero
multiple of 65536). -/
theorem claim5_pages_formula (n d : Nat) :
    1 ≤ stablePages n d ∧ (n * d + n + d) * 4 < stablePages n d * 65536 ∧
      (stablePages n d - 1) * 65536 ≤ (n * d + n + d) * 4 := by
  simp only [stablePages]
  omega

/-- Claim C6: `initialize` writes `A` element `i` at byte offset `i*4` and `B`
element `j` at byte offset `n*d*4 + j*4`, each as the 4-byte little-endian
encoding of the element, and the engines' offsets are `a_addr = 0`,
`b_addr = n*d*4`, `out_addr = (n*d + n)*4`; for `n = 4`, `d = 2` these are
0, 32 and 48. -/
theorem claim6_layout (n d i j k : Nat) (hi : i < n * d) (hj : j < n) (hk : k < 4) :
    (initState n d).2.mem (i * 4 + k) = (toLeBytes ((initState n d).1.a.getD i 0)).getD k 0 ∧
    (initState n d).2.mem (n * d * 4 + j * 4 + k)
      = (toLeBytes ((initState n d).1.b.getD j 0)).getD k 0 ∧
    aAddr = 0 ∧ bAddr n d = n * d * 4 ∧ outAddr n d = (n * d + n) * 4 ∧
    bAddr 4 2 = 32 ∧ outAddr 4 2 = 48 := by
  refine ⟨?_, ?_, rfl, rfl, rfl, by decide, by decide⟩
  · have ha : (initState n d).1.a.getD i 0 = i % 4294967296 := initA_getD n d i hi
    rw [ha]
    exact initMem_byte_a n d i k hi hk
  · have hb : (initState n d).1.b.getD j 0 = j % 4294967296 := initB_getD n j hj
    rw [hb]
    exact initMem_byte_b n d j k hj hk

/-- Witness for C6 at `n = 4`, `d = 2`, `i = 7`, `j = 3`, `k = 1`. -/
theorem claim6_witness :
    7 < 4 * 2 ∧ 3 < 4 ∧ 1 < 4 ∧
      ((initState 4 2).2.mem (7 * 4 + 1) = (toLeBytes ((initState 4 2).1.a.getD 7 0)).getD 1 0 ∧
       (initState 4 2).2.mem (4 * 2 * 4 + 3 * 4 + 1)
         = (toLeBytes ((initState 4 2).1.b.getD 3 0)).getD 1 0 ∧
       aAddr = 0 ∧ bAddr 4 2 = 4 * 2 * 4 ∧ outAddr 4 2 = (4 * 2 + 4) * 4 ∧
       bAddr 4 2 = 32 ∧ outAddr 4 2 = 48) :=
  ⟨by decide, by decide, by decide, claim6_layout 4 2 7 3 1 (by decide) (by decide) (by decide)⟩

/-- Claim C8, counterexample: when `initialize(0, 1)` fails because the growth
request is denied, `Out` in `MatrixState` has already been mutated at the
moment of failure — the assignment `data.out = vec![0; d]` precedes the
`stable_grow(..).unwrap()` in `init`, so `Out = [0]` differs from the
pre-call empty `Out`. -/
theorem claim8_counterexample : (initFailState 0 1).1.out ≠ emptyData.out := by decide

/-- Claim C8, amended: if `initialize(n, d)` fails because the growth request
is denied, then at the moment of failure no byte of the external store has
been mutated and no pages have been added (all store writes come after the
growth request); but `Out` in `MatrixState` has already been overwritten with
`d` zeros (and `A`, `B` filled), since the in-memory fill precedes the growth
request. -/
theorem claim8_store_untouched_on_failure (n d : Nat) :
    (initFailState n d).2 = emptyStore ∧
    (∀ x, (initFailState n d).2.mem x = 0) ∧
    (initFailState n d).2.pages = 0 ∧
    (initFailState n d).1.out = List.replicate d 0 :=
  ⟨rfl, fun _ => rfl, rfl, rfl⟩

/-- Claim C9: decoding any word of the `A` or `B` region of the freshly
initialized store with the little-endian order (`readWord`, the order the
scalar engine's batch reinterpretation uses on wasm32) recovers exactly the
originally written `A` and `B` elements. -/
theorem claim9_le_roundtrip (n d i j : Nat) (hi : i < n * d) (hj : j < n) :
    readWord (initMem n d) (aAddr + 4 * i) = (initA n d).getD i 0 ∧
    readWord (initMem n d) (bAddr n d + 4 * j) = (initB n).getD j 0 := by
  constructor
  · rw [initMem_readWord_a n d i hi, initA_getD n d i hi]
  · rw [initMem_readWord_b n d j hj, initB_getD n j hj]

/-- Witness for C9 at `n = 2`, `d = 2`, `i = 3`, `j = 1`. -/
theorem claim9_witness :
    3 < 2 * 2 ∧ 1 < 2 ∧
      (readWord (initMem 2 2) (aAddr + 4 * 3) = (initA 2 2).getD 3 0 ∧
       readWord (initMem 2 2) (bAddr 2 2 + 4 * 1) = (initB 2).getD 1 0) :=
  ⟨by decide, by decide, claim9_le_roundtrip 2 2 3 1 (by decide) (by decide)⟩

/-- Claim C2: on the state `initialize(n, d)` produces, with `4 ∣ n` and
`64 ∣ n` (64 is `multiply_heap`'s fixed group size), the heap engine
succeeds and for every row `i < d` the `Out` value it computes in
`MatrixState` equals the `Out` word the scalar store engine writes into the
external store, decoded at `out_addr + 4*i`. -/
theorem claim2_heap_matches_scalar_store (n d : Nat) (h4 : 4 ∣ n) (h64 : 64 ∣ n)
    (i : Nat) (hi : i < d) :
    ∃ dt : Data, matmul 64 (initState n d).1 = some dt ∧
      dt.out.getD i 0
        = readWord ((multiply_stable_old_run (initState n d)).2.mem)
            (outAddr n d + 4 * i) := by
  have ha : (initState n d).1.a.length = n * d := initA_length n d
  have hb : (initState n d).1.b.length = n := initB_length n
  have ho : (initState n d).1.out.length = d := List.length_replicate d 0
  refine ⟨Data.mk (initA n d) (initB n) ((List.range d).map
      (fun i2 => heapRow (initA n d) (initB n) 64 n i2)), ?_, ?_⟩
  · rw [matmul, if_pos (by rw [ha, hb, ho]), hb, ho]
    rfl
  · simp only [getD_map_range _ d i hi]
    rw [heapRow_flat (initA n d) (initB n) 64 n i (by norm_num) h64]
    rw [multiply_stable_old_run]
    have hmem : (initState n d).2.mem = initMem n d := rfl
    rw [hb, ho, hmem, multiply_stable_old_readWord (initMem n d) n d i h4 hi,
      scalarRow_flat (initMem n d) n d i h4]
    congr 1
    apply congrArg List.sum
    apply List.map_congr_left
    intro j hj
    have hj' : j < n := List.mem_range.mp hj
    have hij : i * n + j < n * d := by
      have h1 : (i + 1) * n ≤ d * n := mul_le_mul_right' hi n
      have e1 : (i + 1) * n = i * n + n := by ring
      have e2 : d * n = n * d := by ring
      omega
    rw [initA_getD n d (i * n + j) hij, initB_getD n j hj']
    have e : aAddr + i * n * 4 + 4 * j = aAddr + 4 * (i * n + j) := by ring
    rw [e, initMem_readWord_a n d (i * n + j) hij, initMem_readWord_b n d j hj']

/-- Witness for C2 at `n = 64`, `d = 1`, `i = 0`. -/
theorem claim2_witness :
    (4 ∣ 64) ∧ (64 ∣ 64) ∧ 0 < 1 ∧
      (∃ dt : Data, matmul 64 (initState 64 1).1 = some dt ∧
        dt.out.getD 0 0
          = readWord ((multiply_stable_old_run (initState 64 1)).2.mem)
              (outAddr 64 1 + 4 * 0)) :=
  ⟨⟨16, rfl⟩, ⟨1, rfl⟩, by decide,
    claim2_heap_matches_scalar_store 64 1 ⟨16, rfl⟩ ⟨1, rfl⟩ 0 (by decide)⟩

set_option maxRecDepth 8192 in
/-- Claim C7: a 32-bit signed overflow in the multiply-accumulate wraps
modulo 2^32 in every engine.  For `n = 1`, `d = 1` with `A = [2147483647]`,
`B = [2]` both store engines write the pattern 4294967294 (signed value −2,
the two's-complement wrap of `2147483647 * 2`) to `Out`, and the heap engine
produces the same wrapped pattern on its overflow scenario; no wider type is
involved: the signed value of the wrapped product differs from the
mathematical signed product by exactly 2^32. -/
theorem claim7_overflow_wraps :
    readWord (multiply_stable_old overflowMem 1 1) (outAddr 1 1 + 4 * 0) = 4294967294 ∧
    readWord (multiply_stable overflowMem 1 1) (outAddr 1 1 + 4 * 0) = 4294967294 ∧
    matmul 64 overflowData = some { overflowData with out := [4294967294] } ∧
    toInt32 4294967294 = -2 ∧
    toInt32 (mul32 2147483647 2) = toInt32 2147483647 * toInt32 2 - 4294967296 := by decide

/-- Claim C10: in the uninitialized state (`A`, `B`, `Out` all empty, store
never grown), `multiply_heap` passes its assertion (`0 = 0*0`) and returns
normally, and both store engines run zero loop iterations; all three leave
`MatrixState` and the external store completely unchanged. -/
theorem claim10_uninitialized_noop :
    multiply_heap_run (emptyData, emptyStore) = some (emptyData, emptyStore) ∧
    multiply_stable_old_run (emptyData, emptyStore) = (emptyData, emptyStore) ∧
    multiply_stable_run (emptyData, emptyStore) = (emptyData, emptyStore) :=
  ⟨rfl, rfl, rfl⟩
